import Mathlib

/-!
Verification development for the contact-extraction backend
(`backend/app.py` of the leadsforb4s repository).

The Python source is shallowly embedded: strings are `List Char`, the
`re` module's backtracking semantics (leftmost start, first alternative
wins, greedy quantifiers) are implemented by a fuel-based enumerator
`runM` that lists every way a pattern can match, in exactly the priority
order Python's engine explores them; the first element is the match
Python returns.  Effectful parts (the HTTP GET plus BeautifulSoup's
`get_text`) are passed in as an oracle argument.
-/

namespace LeadsApp

/-- Python `str.isspace` / regex `\s` for the character ranges relevant
here (ASCII whitespace, the C0 separators, NEL, NBSP and the common
Unicode space code points). -/
def pyIsSpaceB (c : Char) : Bool :=
  (0x09 ≤ c.val && c.val ≤ 0x0d) || c.val = 0x20 ||
  (0x1c ≤ c.val && c.val ≤ 0x1f) || c.val = 0x85 || c.val = 0xa0 ||
  c.val = 0x1680 || (0x2000 ≤ c.val && c.val ≤ 0x200a) ||
  c.val = 0x2028 || c.val = 0x2029 || c.val = 0x202f ||
  c.val = 0x205f || c.val = 0x3000

/-- Python `str.strip()`: drop leading and trailing whitespace. -/
def pyStrip (l : List Char) : List Char :=
  ((l.dropWhile pyIsSpaceB).reverse.dropWhile pyIsSpaceB).reverse

/-- Python `re.sub(r"\s+", " ", ·)`: replace every maximal whitespace
run by a single space.  Processed right to left: a whitespace character
merges into an already-emitted collapsed space. -/
def collapseWs (l : List Char) : List Char :=
  l.foldr
    (fun c acc =>
      if pyIsSpaceB c then
        match acc with
        | a :: rest => if pyIsSpaceB a then ' ' :: rest else ' ' :: a :: rest
        | [] => [' ']
      else c :: acc)
    []

/-- Python `re.sub(r"\s+", "", ·)`: delete all whitespace. -/
def stripAllWs (l : List Char) : List Char := l.filter (fun c => !pyIsSpaceB c)

/-- Python `str.title()` restricted to ASCII letters as the "cased"
characters: the first cased character of each cased run is uppercased,
the following ones lowercased. -/
def pyTitleGo : Bool → List Char → List Char
  | _, [] => []
  | prev, c :: rest =>
    (if c.isAlpha then (if prev then c.toLower else c.toUpper) else c) ::
      pyTitleGo c.isAlpha rest

def pyTitle (l : List Char) : List Char := pyTitleGo false l

/-- Case-insensitive character comparison (ASCII case folding), the
effect of `re.IGNORECASE` on a literal pattern character `p`. -/
def ciEqB (p c : Char) : Bool := c.toLower = p.toLower

/-- Pointwise case-insensitive equality of two character lists. -/
def eqCIB : List Char → List Char → Bool
  | [], [] => true
  | p :: ps, c :: cs => ciEqB p c && eqCIB ps cs
  | _, _ => false

/-- `t.drop a |>.take (b - a)`: the Python slice `t[a:b]` (for `a ≤ b`;
both ends clipped to the string, as in Python). -/
def sliceAbs (t : List Char) (a b : Nat) : List Char := (t.drop a).take (b - a)

/-! ## A tiny regex AST and Python-style backtracking engine -/

/-- Regex abstract syntax: empty string, single-character class,
concatenation, ordered alternation, greedy star, capture group. -/
inductive RE where
  | eps : RE
  | cls (p : Char → Bool) : RE
  | cat (a b : RE) : RE
  | alt (a b : RE) : RE
  | star (a : RE) : RE
  | grp (n : Nat) (a : RE) : RE

/-- Capture list: `(group number, start, end)` in absolute positions. -/
abbrev Caps := List (Nat × Nat × Nat)

/-- Enumerate every way `re` can match a prefix of `rem` (which sits at
absolute position `pos` of the subject), in the priority order of a
Python-style backtracking engine: for `alt` the left branch first, for
`star` more iterations first (greedy), and for `cat` the choices of the
left factor dominate.  Each result is `(rest, end, caps)`.  `fuel`
bounds the recursion depth; with enough fuel the head of the list is
exactly the match Python's `re` returns.  A `star` iteration must
consume at least one character (Python stops repeating on an empty
iteration match; none of the patterns below has a nullable star body). -/
def runM : Nat → RE → List Char → Nat → List (List Char × Nat × Caps)
  | 0, _, _, _ => []
  | _ + 1, .eps, rem, pos => [(rem, pos, [])]
  | _ + 1, .cls p, rem, pos =>
    match rem with
    | [] => []
    | c :: rest => if p c then [(rest, pos + 1, [])] else []
  | f + 1, .cat a b, rem, pos =>
    (runM f a rem pos).flatMap
      (fun r1 => (runM f b r1.1 r1.2.1).map
        (fun r2 => (r2.1, r2.2.1, r1.2.2 ++ r2.2.2)))
  | f + 1, .alt a b, rem, pos => runM f a rem pos ++ runM f b rem pos
  | f + 1, .star a, rem, pos =>
    ((runM f a rem pos).filter (fun r1 => r1.1.length < rem.length)).flatMap
      (fun r1 => (runM f (.star a) r1.1 r1.2.1).map
        (fun r2 => (r2.1, r2.2.1, r1.2.2 ++ r2.2.2)))
    ++ [(rem, pos, [])]
  | f + 1, .grp n a, rem, pos =>
    (runM f a rem pos).map (fun r1 => (r1.1, r1.2.1, (n, pos, r1.2.1) :: r1.2.2))

/-- Fuel that is comfortably larger than the recursion depth any of the
patterns below can reach on the given subject. -/
def FUEL (text : List Char) : Nat := 1000 * (text.length + 1)

/-- Try to match `re` at position `pos` of `text`; on success return the
match end and the captures (Python `pattern.match`-at-position). -/
def matchAt (re : RE) (text : List Char) (pos : Nat) : Option (Nat × Caps) :=
  match runM (FUEL text) re (text.drop pos) pos with
  | [] => none
  | r :: _ => some (r.2.1, r.2.2)

/-- Scan start positions `pos, pos+1, …` left to right and return the
first position where the pattern matches (Python `re.search`). -/
def searchAux (re : RE) (text : List Char) : Nat → Nat → Option (Nat × Nat × Caps)
  | 0, _ => none
  | f + 1, pos =>
    match matchAt re text pos with
    | some r => some (pos, r.1, r.2)
    | none => if pos < text.length then searchAux re text f (pos + 1) else none

def reSearch (re : RE) (text : List Char) : Option (Nat × Nat × Caps) :=
  searchAux re text (text.length + 1) 0

/-- Python `re.finditer`: repeatedly search, continuing after each match
(after an empty match, one character further). -/
def finditerAux (re : RE) (text : List Char) : Nat → Nat → List (Nat × Nat × Caps)
  | 0, _ => []
  | f + 1, pos =>
    match searchAux re text (text.length + 1) pos with
    | none => []
    | some m => m :: finditerAux re text f (if m.2.1 ≤ m.1 then m.1 + 1 else m.2.1)

def finditer (re : RE) (text : List Char) : List (Nat × Nat × Caps) :=
  finditerAux re text (text.length + 1) 0

/-! Derived regex constructors mirroring Python syntax. -/

/-- `x?` (greedy): try the body first, then the empty alternative. -/
def REopt (a : RE) : RE := .alt a .eps

/-- `x+` (greedy). -/
def REplus (a : RE) : RE := .cat a (.star a)

/-- `x{n}`. -/
def repExact : Nat → RE → RE
  | 0, _ => .eps
  | n + 1, a => .cat a (repExact n a)

/-- `x{0,k}` (greedy: each level tries one more iteration first). -/
def repUpTo : Nat → RE → RE
  | 0, _ => .eps
  | k + 1, a => REopt (.cat a (repUpTo k a))

/-- `x{m,n}` (greedy), `m ≤ n`. -/
def repRange (m n : Nat) (a : RE) : RE := .cat (repExact m a) (repUpTo (n - m) a)

/-- A literal string, each character matched case-insensitively (the
pattern under `re.IGNORECASE`). -/
def litCI : List Char → RE
  | [] => .eps
  | c :: cs => .cat (.cls (ciEqB c)) (litCI cs)

/-- A literal string matched case-sensitively. -/
def lit : List Char → RE
  | [] => .eps
  | c :: cs => .cat (.cls (· = c)) (lit cs)

/-- Ordered alternation over a list of branches (Python `a|b|…`); the
final never-matching branch keeps the recursion uniform. -/
def altList : List RE → RE
  | [] => .cls (fun _ => false)
  | r :: rs => .alt r (altList rs)

/-! ## The patterns of `backend/app.py` -/

/-- `[a-zA-Z0-9_.+-]` — the local part of the email pattern. -/
def emailLocalCls : RE :=
  .cls (fun c => c.isAlphanum || c = '_' || c = '.' || c = '+' || c = '-')

/-- `[a-zA-Z0-9-]` — an email domain label. -/
def emailDomCls : RE := .cls (fun c => c.isAlphanum || c = '-')

/-- `[a-zA-Z0-9-.]` — the email domain tail. -/
def emailDomDotCls : RE := .cls (fun c => c.isAlphanum || c = '-' || c = '.')

/-- `re.compile(r"[a-zA-Z0-9_.+-]+@[a-zA-Z0-9-]+\.[a-zA-Z0-9-.]+")`. -/
def emailRE : RE :=
  .cat (REplus emailLocalCls)
    (.cat (.cls (· = '@'))
      (.cat (REplus emailDomCls)
        (.cat (.cls (· = '.')) (REplus emailDomDotCls))))

/-- `\d` (ASCII digits). -/
def digitCls : RE := .cls Char.isDigit

/-- `[\s-]`. -/
def wsDashCls : RE := .cls (fun c => pyIsSpaceB c || c = '-')

/-- `re.compile(r"(?:\+91[\s-]?)?[6-9]\d{9}|0\d{2,4}[\s-]?\d{6,8}", re.MULTILINE)`
(the `MULTILINE` flag is inert: the pattern has no anchors). -/
def phoneRE : RE :=
  .alt
    (.cat (REopt (.cat (lit ['+', '9', '1']) (REopt wsDashCls)))
      (.cat (.cls (fun c => '6' ≤ c && c ≤ '9')) (repExact 9 digitCls)))
    (.cat (.cls (· = '0'))
      (.cat (repRange 2 4 digitCls)
        (.cat (REopt wsDashCls) (repRange 6 8 digitCls))))

/-- `\s`. -/
def wsCls : RE := .cls pyIsSpaceB

/-- `[A-Z]` under `re.IGNORECASE`: any ASCII letter. -/
def upperCI : RE := .cls Char.isAlpha

/-- The characters of `[a-zA-Z\'\.-]`. -/
def nameTailChar (c : Char) : Bool :=
  c.isAlpha || c = Char.ofNat 39 || c = '.' || c = '-'

/-- `[a-zA-Z\'\.-]` (already case-closed, so `IGNORECASE` adds nothing). -/
def nameTailCls : RE := .cls nameTailChar

/-- One name word with its mandatory trailing whitespace:
`[A-Z][a-zA-Z\'\.-]*\s+`. -/
def wordSpRE : RE := .cat upperCI (.cat (.star nameTailCls) (REplus wsCls))

/-- `Dr\.?\s*` under `IGNORECASE`. -/
def drRE : RE :=
  .cat (litCI ['D', 'r']) (.cat (REopt (.cls (· = '.'))) (.star wsCls))

/-- The body of capture group 1 of the name/designation pattern:
`(?:Dr\.?\s*)?(?:[A-Z][a-zA-Z\'\.-]*\s+){1,4}`. -/
def nameGrpBody : RE := .cat (REopt drRE) (repRange 1 4 wordSpRE)

/-- The designation vocabulary, in the exact order of
`designation_keywords` in the source (the order of the `|`-join). -/
def designation_keywords : List String :=
  ["Professor", "Associate Professor", "Assistant Professor", "HOD", "Head",
   "Dean", "Director", "Coordinator", "Principal", "Chairperson", "Registrar"]

/-- Capture group 2 of the name/designation pattern: the `|`-join of the
vocabulary, each entry case-insensitive. -/
def desigAlt : RE := altList (designation_keywords.map (fun s => litCI s.toList))

/-- `name_designation_regex`:
`((?:Dr\.?\s*)?(?:[A-Z][a-zA-Z\'\.-]*\s+){1,4})\s*(Professor|…|Registrar)`
compiled with `re.IGNORECASE`. -/
def ndRE : RE :=
  .cat (.grp 1 nameGrpBody) (.cat (.star wsCls) (.grp 2 desigAlt))

/-- `student_keywords` in source order. -/
def student_keywords : List String :=
  ["Placement Cell", "Student Council", "Cultural Head"]

/-- The characters of `[-,;:]`. -/
def sepChar (c : Char) : Bool := c = '-' || c = ',' || c = ';' || c = ':'

/-- `[-,;:]`. -/
def sepCls : RE := .cls sepChar

/-- The student-lead pattern for one keyword:
`((?:[A-Z][a-zA-Z\'\.-]*\s+){1,4}[A-Z][a-zA-Z\'\.-]*)\s*[-,;:]?\s*` +
`re.escape(keyword)`, compiled with `re.IGNORECASE`. -/
def studentRE (kw : String) : RE :=
  .cat
    (.grp 1 (.cat (repRange 1 4 wordSpRE) (.cat upperCI (.star nameTailCls))))
    (.cat (.star wsCls)
      (.cat (REopt sepCls) (.cat (.star wsCls) (litCI kw.toList))))

/-! ## `\b`-bounded keyword search (`_guess_department`) -/

/-- Regex `\w` for ASCII. -/
def isWordChar (c : Char) : Bool := c.isAlphanum || c = '_'

/-- Does `re.search(r"\b" + kw + r"\b", ctx, re.IGNORECASE)` hit at
position `i`?  The keywords start and end with word characters, so the
boundaries reduce to the neighbours not being word characters. -/
def wordHitAt (ctx kw : List Char) (i : Nat) : Bool :=
  i + kw.length ≤ ctx.length &&
  eqCIB kw (sliceAbs ctx i (i + kw.length)) &&
  (i = 0 || !(isWordChar (ctx.getD (i - 1) ' '))) &&
  (i + kw.length = ctx.length || !(isWordChar (ctx.getD (i + kw.length) ' ')))

/-- Truthiness of `re.search(r"\b…\b", ctx, re.IGNORECASE)`. -/
def containsWord (ctx kw : List Char) : Bool :=
  (List.range (ctx.length + 1)).any (wordHitAt ctx kw)

/-- `department_keywords` in source order. -/
def department_keywords : List String :=
  ["Engineering", "Science", "Arts", "Commerce", "Management", "Technology",
   "Business", "Medical"]

/-- `_guess_department`: the first keyword (in list order) occurring
whole-word, case-insensitively, in the context; `None` otherwise. -/
def _guess_department (context : List Char) : Option String :=
  (department_keywords.find? (fun kw => containsWord context kw.toList))

/-! ## Contacts and the extraction pipeline -/

structure Contact where
  name : String
  designation : String
  department : Option String
  email : Option String
  phone : Option String
deriving DecidableEq

/-- `match.group(n)`'s span, looked up in the capture list (the patterns
below always populate the groups they declare). -/
def capGet (caps : Caps) (n : Nat) : Nat × Nat :=
  match caps.find? (fun t => t.1 = n) with
  | some t => (t.2.1, t.2.2)
  | none => (0, 0)

/-- `text[max(0, s - 300):s]` (`Nat` subtraction clips at 0 exactly like
Python's `max`). -/
def contextBefore (text : List Char) (s : Nat) : List Char :=
  sliceAbs text (s - 300) s

/-- `text[e:e + 300]` (the slice clips at the end of the string). -/
def contextAfter (text : List Char) (e : Nat) : List Char :=
  sliceAbs text e (e + 300)

/-- The per-match context resolution shared by both matchers
(lines 176–188 and 215–227 of the source): department from the before
window, else the after window; email and phone from the first pattern
match in the after window. -/
def resolveFields (text : List Char) (s e : Nat) :
    Option String × Option String × Option String :=
  let before := contextBefore text s
  let after := contextAfter text e
  let department :=
    match _guess_department before with
    | some d => some d
    | none => _guess_department after
  let email := (reSearch emailRE after).map
    (fun m => String.mk (pyStrip (sliceAbs after m.1 m.2.1)))
  let phone := (reSearch phoneRE after).map
    (fun m => String.mk (stripAllWs (pyStrip (sliceAbs after m.1 m.2.1))))
  (department, email, phone)

/-- The contact built from one `name_designation_regex` match
(lines 167–198): `name` from group 1 stripped and whitespace-collapsed,
`designation` from group 2 title-cased, the rest from the context
windows. -/
def ndContact (text : List Char) (m : Nat × Nat × Caps) : Contact :=
  let g1 := capGet m.2.2 1
  let name := collapseWs (pyStrip (sliceAbs text g1.1 g1.2))
  let g2 := capGet m.2.2 2
  let designation := pyTitle (sliceAbs text g2.1 g2.2)
  let fields := resolveFields text m.1 m.2.1
  ⟨String.mk name, String.mk designation, fields.1, fields.2.1, fields.2.2⟩

/-- The contacts produced by `name_designation_regex.finditer(text)`. -/
def ndContacts (text : List Char) : List Contact :=
  (finditer ndRE text).map (ndContact text)

/-- The contact built from one student-pattern match (lines 209–236):
the designation is the keyword itself. -/
def studentContact (kw : String) (text : List Char) (m : Nat × Nat × Caps) :
    Contact :=
  let g1 := capGet m.2.2 1
  let name := collapseWs (pyStrip (sliceAbs text g1.1 g1.2))
  let fields := resolveFields text m.1 m.2.1
  ⟨String.mk name, kw, fields.1, fields.2.1, fields.2.2⟩

/-- The contacts produced by the student pattern of one keyword. -/
def studentContactsFor (kw : String) (text : List Char) : List Contact :=
  (finditer (studentRE kw) text).map (studentContact kw text)

/-- All matched contacts before deduplication: the name/designation
matches first, then the student keywords in list order. -/
def matchedContacts (text : List Char) : List Contact :=
  ndContacts text ++
    student_keywords.flatMap (fun kw => studentContactsFor kw text)

/-- The dedup key: the triple `(c["name"], c["designation"], c.get("email"))`. -/
def contactKey (c : Contact) : String × String × Option String :=
  (c.name, c.designation, c.email)

/-- The dedup loop of lines 239–245: keep a contact iff its key is not
in the `seen` set; first occurrence wins. -/
def dedupAux : List Contact → List (String × String × Option String) → List Contact
  | [], _ => []
  | c :: rest, seen =>
    if contactKey c ∈ seen then dedupAux rest seen
    else c :: dedupAux rest (contactKey c :: seen)

def dedupContacts (l : List Contact) : List Contact := dedupAux l []

/-- Lines 136–137: replace `\xa0` by a space, then collapse whitespace. -/
def flattenText (raw : List Char) : List Char :=
  collapseWs (raw.map (fun c => if c = Char.ofNat 0xa0 then ' ' else c))

/-- The pure tail of `extract_contacts` (lines 136–247): whitespace
normalisation, both matchers, deduplication. -/
def processText (raw : List Char) : List Contact :=
  dedupContacts (matchedContacts (flattenText raw))

/-- `_extract_emails` (the global email set of line 140, computed but
not consumed by per-contact resolution).  Python returns `list(set(…))`
whose order is unspecified; this model returns first occurrences in
match order. -/
def _extract_emails (text : List Char) : List String :=
  ((finditer emailRE text).map
    (fun m => String.mk (pyStrip (sliceAbs text m.1 m.2.1)))).eraseDups

/-- `_extract_phones` (the global phone set of line 141; same caveat on
set order).  Whitespace is stripped from each match before dedup. -/
def _extract_phones (text : List Char) : List String :=
  ((finditer phoneRE text).map
    (fun m => String.mk (stripAllWs (pyStrip (sliceAbs text m.1 m.2.1))))).eraseDups

/-! ## URL normalisation (`_normalise_url` and `urlparse`'s scheme) -/

/-- `urllib.parse`'s scheme characters: letters, digits, `+`, `-`, `.`. -/
def schemeChar (c : Char) : Bool := c.isAlphanum || c = '+' || c = '-' || c = '.'

/-- The preprocessing `urlsplit` applies before looking for a scheme:
strip leading C0 control/space characters, then delete every tab,
carriage return and newline. -/
def urlForSplit (url : List Char) : List Char :=
  (url.dropWhile (fun c => c.val ≤ 0x20)).filter
    (fun c => !(c = Char.ofNat 9 || c = Char.ofNat 10 || c = Char.ofNat 13))

/-- `urlparse(url).scheme ≠ ""`: there is a first colon at index `i > 0`,
the first character is an ASCII letter and everything before the colon
is a scheme character. -/
def hasScheme (url : List Char) : Bool :=
  match (urlForSplit url).findIdx? (· = ':') with
  | none => false
  | some i =>
    0 < i && ((urlForSplit url).headD ' ').isAlpha &&
      ((urlForSplit url).take i).all schemeChar

/-- `_normalise_url` (lines 55–70): strip, then prefix `https:` to
protocol-relative URLs, prefix `https://` when `urlparse` finds no
scheme, otherwise return the (stripped) URL. -/
def _normalise_url (url : String) : String :=
  if (pyStrip url.toList).take 2 = ['/', '/'] then
    String.mk ('h' :: 't' :: 't' :: 'p' :: 's' :: ':' :: pyStrip url.toList)
  else if hasScheme (pyStrip url.toList) then String.mk (pyStrip url.toList)
  else
    String.mk
      ('h' :: 't' :: 't' :: 'p' :: 's' :: ':' :: '/' :: '/' :: pyStrip url.toList)

/-! ## The orchestrator and the HTTP handler -/

/-- The outcome of the effectful prefix of `extract_contacts` (the
`requests.get` + `raise_for_status` of the `try` block, followed by
BeautifulSoup's `get_text(separator="\n")`): either the flattened page
text or the message of the raised exception. -/
inductive FetchOutcome where
  | success (text : String) : FetchOutcome
  | failure (msg : String) : FetchOutcome

/-- The result type of `extract_contacts`: a contact list, or the
`{"error": …}` dict. -/
inductive ExtractResult where
  | contacts (cs : List Contact) : ExtractResult
  | error (msg : String) : ExtractResult
deriving DecidableEq

/-- `extract_contacts` (lines 116–247), with the network and HTML
parsing supplied as the oracle `fetch`. -/
def extract_contacts (fetch : String → FetchOutcome) (url : String) : ExtractResult :=
  match fetch (_normalise_url url) with
  | .failure msg => .error ("Failed to fetch URL: " ++ msg)
  | .success text => .contacts (processText text.toList)

/-- The request body as seen through `request.get_json(silent=True)`:
`none` for a missing/unparsable body, otherwise a JSON object modelled
as an association list with string values. -/
abbrev JsonBody := Option (List (String × String))

/-- `data.get("url")`. -/
def bodyUrl (kvs : List (String × String)) : Option String :=
  (kvs.find? (fun kv => kv.1 = "url")).map (fun kv => kv.2)

/-- `api_extract` (lines 250–265): 400 when the body is falsy or the
`url` field is falsy; 500 when `extract_contacts` returns a non-empty
error; 200 otherwise.  Returns the status code and the response body. -/
def api_extract (fetch : String → FetchOutcome) (data : JsonBody) :
    Nat × ExtractResult :=
  let bad : Nat × ExtractResult :=
    (400, .error "A JSON payload with a 'url' field is required.")
  match data with
  | none => bad
  | some kvs =>
    if kvs.isEmpty then bad
    else
      match bodyUrl kvs with
      | none => bad
      | some u =>
        if u = "" then bad
        else
          match extract_contacts fetch u with
          | .error msg =>
            if msg = "" then (200, .error msg) else (500, .error msg)
          | .contacts cs => (200, .contacts cs)

/-! ## Declarative match semantics and engine soundness -/

/-- `MatchesC re u pos caps`: the pattern `re` can match exactly the
characters `u`, placed at absolute position `pos` of the subject,
producing the capture spans `caps`.  Star iterations are required to be
non-empty, matching the engine's progress guard. -/
inductive MatchesC : RE → List Char → Nat → Caps → Prop where
  | eps (pos : Nat) : MatchesC .eps [] pos []
  | cls {p : Char → Bool} {c : Char} (pos : Nat) (h : p c = true) :
      MatchesC (.cls p) [c] pos []
  | cat {a b : RE} {u v : List Char} {pos : Nat} {cu cv : Caps}
      (ha : MatchesC a u pos cu) (hb : MatchesC b v (pos + u.length) cv) :
      MatchesC (.cat a b) (u ++ v) pos (cu ++ cv)
  | altL {a b : RE} {u : List Char} {pos : Nat} {c : Caps}
      (h : MatchesC a u pos c) : MatchesC (.alt a b) u pos c
  | altR {a b : RE} {u : List Char} {pos : Nat} {c : Caps}
      (h : MatchesC b u pos c) : MatchesC (.alt a b) u pos c
  | starNil (a : RE) (pos : Nat) : MatchesC (.star a) [] pos []
  | starCons {a : RE} {u v : List Char} {pos : Nat} {cu cv : Caps}
      (hu : MatchesC a u pos cu) (hne : u ≠ [])
      (hv : MatchesC (.star a) v (pos + u.length) cv) :
      MatchesC (.star a) (u ++ v) pos (cu ++ cv)
  | grp {n : Nat} {a : RE} {u : List Char} {pos : Nat} {c : Caps}
      (h : MatchesC a u pos c) :
      MatchesC (.grp n a) u pos ((n, pos, pos + u.length) :: c)

/-- Soundness of the enumerator: every result `(rest, e, caps)` of
`runM` comes from an actual match `u` of the pattern, with `rem = u ++
rest` and `e = pos + u.length`. -/
theorem runM_sound (f : Nat) : ∀ (re : RE) (rem : List Char) (pos : Nat)
    (r : List Char × Nat × Caps), r ∈ runM f re rem pos →
    ∃ u, rem = u ++ r.1 ∧ r.2.1 = pos + u.length ∧ MatchesC re u pos r.2.2 := by
  induction f with
  | zero => intro re rem pos r h; simp [runM] at h
  | succ f ih =>
    intro re rem pos r h
    cases re with
    | eps =>
      simp only [runM, List.mem_singleton] at h
      subst h
      exact ⟨[], by simp, by simp, MatchesC.eps pos⟩
    | cls p =>
      cases rem with
      | nil => simp [runM] at h
      | cons c rest =>
        simp only [runM] at h
        by_cases hp : p c = true
        · simp only [hp, if_true, List.mem_singleton] at h
          subst h
          exact ⟨[c], by simp, by simp, MatchesC.cls pos hp⟩
        · simp only [hp, if_false, List.not_mem_nil] at h
          simp at hp
          simp [hp] at h
    | cat a b =>
      simp only [runM, List.mem_flatMap, List.mem_map] at h
      obtain ⟨r1, hr1, r2, hr2, hco⟩ := h
      obtain ⟨u, hu1, hu2, hu3⟩ := ih a rem pos r1 hr1
      obtain ⟨v, hv1, hv2, hv3⟩ := ih b r1.1 r1.2.1 r2 hr2
      refine ⟨u ++ v, ?_, ?_, ?_⟩
      · rw [← hco]; simp [hu1, hv1]
      · rw [← hco]; simp only [List.length_append]; omega
      · rw [← hco]
        exact MatchesC.cat hu3 (hu2 ▸ hv3)
    | alt a b =>
      simp only [runM, List.mem_append] at h
      rcases h with h | h
      · obtain ⟨u, h1, h2, h3⟩ := ih a rem pos r h
        exact ⟨u, h1, h2, MatchesC.altL h3⟩
      · obtain ⟨u, h1, h2, h3⟩ := ih b rem pos r h
        exact ⟨u, h1, h2, MatchesC.altR h3⟩
    | star a =>
      simp only [runM, List.mem_append, List.mem_flatMap, List.mem_map,
        List.mem_filter, List.mem_singleton, decide_eq_true_eq] at h
      rcases h with ⟨r1, ⟨hr1, hlen⟩, r2, hr2, hco⟩ | h
      · obtain ⟨u, hu1, hu2, hu3⟩ := ih a rem pos r1 hr1
        obtain ⟨v, hv1, hv2, hv3⟩ := ih (.star a) r1.1 r1.2.1 r2 hr2
        have hune : u ≠ [] := by
          intro hnil
          rw [hu1, hnil] at hlen
          simp at hlen
        refine ⟨u ++ v, ?_, ?_, ?_⟩
        · rw [← hco]; simp [hu1, hv1]
        · rw [← hco]; simp only [List.length_append]; omega
        · rw [← hco]
          exact MatchesC.starCons hu3 hune (hu2 ▸ hv3)
      · subst h
        exact ⟨[], by simp, by simp, MatchesC.starNil a pos⟩
    | grp n a =>
      simp only [runM, List.mem_map] at h
      obtain ⟨r1, hr1, hco⟩ := h
      obtain ⟨u, h1, h2, h3⟩ := ih a rem pos r1 hr1
      refine ⟨u, ?_, ?_, ?_⟩
      · rw [← hco]; exact h1
      · rw [← hco]; exact h2
      · rw [← hco]
        have := MatchesC.grp (n := n) h3
        rw [← h2] at this
        exact this

/-- Soundness of `matchAt`: a reported match `(e, caps)` at `pos` is a
real match of the slice `text[pos:e]`. -/
theorem matchAt_sound {re : RE} {text : List Char} {pos e : Nat} {caps : Caps}
    (h : matchAt re text pos = some (e, caps)) :
    ∃ u, text.drop pos = u ++ text.drop e ∧ e = pos + u.length ∧
      u = sliceAbs text pos e ∧ MatchesC re u pos caps := by
  unfold matchAt at h
  rcases hm : runM (FUEL text) re (text.drop pos) pos with _ | ⟨r, rs⟩
  · rw [hm] at h; exact absurd h (by simp)
  · rw [hm] at h
    simp only [Option.some.injEq, Prod.mk.injEq] at h
    obtain ⟨he, hc⟩ := h
    obtain ⟨u, h1, h2, h3⟩ := runM_sound (FUEL text) re (text.drop pos) pos r
      (by rw [hm]; exact List.mem_cons_self r rs)
    have h4 : e = pos + u.length := by omega
    have hrest : text.drop e = r.1 := by
      rw [h4, ← List.drop_drop, h1, List.drop_left]
    refine ⟨u, ?_, ?_, ?_, ?_⟩
    · rw [hrest, h1]
    · omega
    · unfold sliceAbs
      rw [h1]
      have h5 : e - pos = u.length := by omega
      rw [h5, List.take_left]
    · rw [← hc]; exact h3

/-- A match never ends before it starts. -/
theorem matchAt_le {re : RE} {text : List Char} {pos e : Nat} {caps : Caps}
    (h : matchAt re text pos = some (e, caps)) : pos ≤ e := by
  obtain ⟨u, _, h2, _, _⟩ := matchAt_sound h
  omega

/-- Soundness of `searchAux`: a hit `(s, e, caps)` starts no earlier
than the scan start and is a real `matchAt` hit. -/
theorem searchAux_sound {re : RE} {text : List Char} :
    ∀ (f pos s e : Nat) (caps : Caps),
      searchAux re text f pos = some (s, e, caps) →
      pos ≤ s ∧ matchAt re text s = some (e, caps) := by
  intro f
  induction f with
  | zero => intro pos s e caps h; simp [searchAux] at h
  | succ f ih =>
    intro pos s e caps h
    unfold searchAux at h
    rcases hm : matchAt re text pos with _ | r
    · rw [hm] at h
      by_cases hlt : pos < text.length
      · simp only [hlt, if_true] at h
        obtain ⟨h1, h2⟩ := ih (pos + 1) s e caps h
        exact ⟨by omega, h2⟩
      · simp [hlt] at h
    · rw [hm] at h
      simp only [Option.some.injEq, Prod.mk.injEq] at h
      obtain ⟨hs, he, hc⟩ := h
      subst hs
      rw [hm, ← he, ← hc]
      exact ⟨Nat.le_refl _, rfl⟩

/-- Every element reported by `finditerAux` is a real match starting at
or after the scan position. -/
theorem finditerAux_sound {re : RE} {text : List Char} :
    ∀ (f pos : Nat) (m : Nat × Nat × Caps), m ∈ finditerAux re text f pos →
      pos ≤ m.1 ∧ matchAt re text m.1 = some (m.2.1, m.2.2) := by
  intro f
  induction f with
  | zero => intro pos m h; simp [finditerAux] at h
  | succ f ih =>
    intro pos m h
    unfold finditerAux at h
    rcases hs : searchAux re text (text.length + 1) pos with _ | m0
    · rw [hs] at h; simp at h
    · rw [hs] at h
      simp only [List.mem_cons] at h
      obtain ⟨h1, h2⟩ := searchAux_sound (text.length + 1) pos m0.1 m0.2.1 m0.2.2 (by
        rw [hs])
      rcases h with h | h
      · subst h; exact ⟨h1, h2⟩
      · obtain ⟨h3, h4⟩ := ih (if m0.2.1 ≤ m0.1 then m0.1 + 1 else m0.2.1) m h
        refine ⟨?_, h4⟩
        by_cases hle : m0.2.1 ≤ m0.1
        · simp only [hle, if_true] at h3; omega
        · simp only [hle, if_false] at h3
          have := matchAt_le h2
          omega

/-- The matches listed by `finditerAux` have strictly increasing start
positions (text order). -/
theorem finditerAux_pairwise {re : RE} {text : List Char} :
    ∀ (f pos : Nat),
      List.Pairwise (fun m m2 => m.1 < m2.1) (finditerAux re text f pos) := by
  intro f
  induction f with
  | zero => intro pos; simp [finditerAux]
  | succ f ih =>
    intro pos
    unfold finditerAux
    rcases hs : searchAux re text (text.length + 1) pos with _ | m0
    · simp
    · refine List.pairwise_cons.mpr ⟨?_, ih _⟩
      intro m hm
      obtain ⟨h3, _⟩ :=
        finditerAux_sound f (if m0.2.1 ≤ m0.1 then m0.1 + 1 else m0.2.1) m hm
      by_cases hle : m0.2.1 ≤ m0.1
      · simp only [hle, if_true] at h3; omega
      · simp only [hle, if_false] at h3; omega

/-- Soundness of `finditer` packaged for the claim proofs. -/
theorem finditer_sound {re : RE} {text : List Char} {m : Nat × Nat × Caps}
    (h : m ∈ finditer re text) :
    ∃ u, text.drop m.1 = u ++ text.drop m.2.1 ∧ m.2.1 = m.1 + u.length ∧
      u = sliceAbs text m.1 m.2.1 ∧ MatchesC re u m.1 m.2.2 :=
  matchAt_sound (finditerAux_sound (text.length + 1) 0 m h).2

/-- The match starts listed by `finditer` are strictly increasing. -/
theorem finditer_pairwise {re : RE} {text : List Char} :
    List.Pairwise (fun m m2 => m.1 < m2.1) (finditer re text) :=
  finditerAux_pairwise (text.length + 1) 0

/-! ## Inversion lemmas for the match semantics -/

theorem matches_eps_inv {u : List Char} {pos : Nat} {caps : Caps}
    (h : MatchesC .eps u pos caps) : u = [] ∧ caps = [] := by
  cases h; exact ⟨rfl, rfl⟩

theorem matches_cls_inv {p : Char → Bool} {u : List Char} {pos : Nat} {caps : Caps}
    (h : MatchesC (.cls p) u pos caps) : ∃ c, u = [c] ∧ caps = [] ∧ p c = true := by
  cases h with
  | cls pos0 hp => exact ⟨_, rfl, rfl, hp⟩

theorem matches_cat_inv {a b : RE} {u : List Char} {pos : Nat} {caps : Caps}
    (h : MatchesC (.cat a b) u pos caps) :
    ∃ u1 u2 c1 c2, u = u1 ++ u2 ∧ caps = c1 ++ c2 ∧
      MatchesC a u1 pos c1 ∧ MatchesC b u2 (pos + u1.length) c2 := by
  cases h with
  | cat ha hb => exact ⟨_, _, _, _, rfl, rfl, ha, hb⟩

theorem matches_alt_inv {a b : RE} {u : List Char} {pos : Nat} {caps : Caps}
    (h : MatchesC (.alt a b) u pos caps) :
    MatchesC a u pos caps ∨ MatchesC b u pos caps := by
  cases h with
  | altL h => exact Or.inl h
  | altR h => exact Or.inr h

theorem matches_grp_inv {n : Nat} {a : RE} {u : List Char} {pos : Nat} {caps : Caps}
    (h : MatchesC (.grp n a) u pos caps) :
    ∃ c0, caps = (n, pos, pos + u.length) :: c0 ∧ MatchesC a u pos c0 := by
  cases h with
  | grp h => exact ⟨_, rfl, h⟩

/-- Patterns without capture groups produce no captures. -/
def noGrpB : RE → Bool
  | .eps => true
  | .cls _ => true
  | .cat a b => noGrpB a && noGrpB b
  | .alt a b => noGrpB a && noGrpB b
  | .star a => noGrpB a
  | .grp _ _ => false

theorem matches_noGrp {re : RE} {u : List Char} {pos : Nat} {caps : Caps}
    (h : MatchesC re u pos caps) (hg : noGrpB re = true) : caps = [] := by
  induction h with
  | eps _ => rfl
  | cls _ _ => rfl
  | cat ha hb iha ihb =>
    simp only [noGrpB, Bool.and_eq_true] at hg
    rw [iha hg.1, ihb hg.2]; rfl
  | altL h ih =>
    simp only [noGrpB, Bool.and_eq_true] at hg
    exact ih hg.1
  | altR h ih =>
    simp only [noGrpB, Bool.and_eq_true] at hg
    exact ih hg.2
  | starNil _ _ => rfl
  | starCons hu hne hv ihu ihv =>
    simp only [noGrpB] at ihu ihv hg
    rw [ihu hg, ihv hg]; rfl
  | grp h ih => simp [noGrpB] at hg

/-- A star match splits into nonempty chunks, each a match of the body. -/
theorem matches_star_chunks {a : RE} : ∀ {re : RE} {u : List Char} {pos : Nat}
    {caps : Caps}, MatchesC re u pos caps → re = .star a →
    ∃ chunks : List (List Char), u = chunks.flatten ∧
      ∀ w ∈ chunks, w ≠ [] ∧ ∃ q c, MatchesC a w q c := by
  intro re u pos caps h
  induction h with
  | starNil a0 pos0 =>
    intro heq
    exact ⟨[], by simp, by simp⟩
  | @starCons a0 u0 v0 pos0 cu0 cv0 hu hne hv ihu ihv =>
    intro heq
    injection heq with ha
    subst ha
    obtain ⟨chunks, hc1, hc2⟩ := ihv rfl
    refine ⟨u0 :: chunks, by simp [hc1], ?_⟩
    intro w hw
    rcases List.mem_cons.mp hw with hw | hw
    · subst hw; exact ⟨hne, _, _, hu⟩
    · exact hc2 w hw
  | eps _ => intro heq; simp at heq
  | cls _ _ => intro heq; simp at heq
  | cat _ _ _ _ => intro heq; simp at heq
  | altL _ _ => intro heq; simp at heq
  | altR _ _ => intro heq; simp at heq
  | grp _ _ => intro heq; simp at heq

/-- A star over a character class matches any run of class characters. -/
theorem matches_star_cls {p : Char → Bool} {u : List Char} {pos : Nat} {caps : Caps}
    (h : MatchesC (.star (.cls p)) u pos caps) : ∀ c ∈ u, p c = true := by
  obtain ⟨chunks, hc1, hc2⟩ := matches_star_chunks h rfl
  subst hc1
  intro c hc
  obtain ⟨w, hw, hcw⟩ := List.mem_flatten.mp hc
  obtain ⟨-, q, cc, hm⟩ := hc2 w hw
  obtain ⟨c0, hc0, -, hp⟩ := matches_cls_inv hm
  subst hc0
  rw [List.mem_singleton] at hcw
  subst hcw
  exact hp

/-- `x+` over a class: a nonempty run of class characters. -/
theorem matches_REplus_cls {p : Char → Bool} {u : List Char} {pos : Nat} {caps : Caps}
    (h : MatchesC (REplus (.cls p)) u pos caps) :
    u ≠ [] ∧ ∀ c ∈ u, p c = true := by
  simp only [REplus] at h
  obtain ⟨u1, u2, c1, c2, hu, hc, h1, h2⟩ := matches_cat_inv h
  obtain ⟨c0, hc0, -, hp⟩ := matches_cls_inv h1
  have hall := matches_star_cls h2
  subst hu; subst hc0
  refine ⟨by simp, ?_⟩
  intro c hcmem
  rcases List.mem_append.mp hcmem with hm | hm
  · rw [List.mem_singleton] at hm; subst hm; exact hp
  · exact hall c hm

theorem matches_litCI : ∀ (w : List Char) {u : List Char} {pos : Nat} {caps : Caps},
    MatchesC (litCI w) u pos caps → eqCIB w u = true ∧ caps = [] := by
  intro w
  induction w with
  | nil =>
    intro u pos caps h
    simp only [litCI] at h
    obtain ⟨h1, h2⟩ := matches_eps_inv h
    subst h1; subst h2
    exact ⟨rfl, rfl⟩
  | cons c cs ih =>
    intro u pos caps h
    simp only [litCI] at h
    obtain ⟨u1, u2, c1, c2, hu, hc, h1, h2⟩ := matches_cat_inv h
    obtain ⟨c0, hc0, hcaps0, hp⟩ := matches_cls_inv h1
    obtain ⟨h3, h4⟩ := ih h2
    subst hu; subst hc0; subst hc; subst hcaps0; subst h4
    exact ⟨by simp [eqCIB, hp, h3], rfl⟩

theorem matches_altList : ∀ (l : List RE) {u : List Char} {pos : Nat} {caps : Caps},
    MatchesC (altList l) u pos caps → ∃ re ∈ l, MatchesC re u pos caps := by
  intro l
  induction l with
  | nil =>
    intro u pos caps h
    simp only [altList] at h
    obtain ⟨c0, -, -, hp⟩ := matches_cls_inv h
    simp at hp
  | cons r rs ih =>
    intro u pos caps h
    simp only [altList] at h
    rcases matches_alt_inv h with h | h
    · exact ⟨r, List.mem_cons_self r rs, h⟩
    · obtain ⟨re, hre, hm⟩ := ih h
      exact ⟨re, List.mem_cons_of_mem r hre, hm⟩

theorem matches_repExact : ∀ (n : Nat) (a : RE) {u : List Char} {pos : Nat}
    {caps : Caps}, MatchesC (repExact n a) u pos caps →
    ∃ chunks : List (List Char), u = chunks.flatten ∧ chunks.length = n ∧
      ∀ w ∈ chunks, ∃ q c, MatchesC a w q c := by
  intro n a
  induction n with
  | zero =>
    intro u pos caps h
    simp only [repExact] at h
    obtain ⟨h1, -⟩ := matches_eps_inv h
    subst h1
    exact ⟨[], by simp, by simp, by simp⟩
  | succ n ih =>
    intro u pos caps h
    simp only [repExact] at h
    obtain ⟨u1, u2, c1, c2, hu, hc, h1, h2⟩ := matches_cat_inv h
    obtain ⟨chunks, h3, h4, h5⟩ := ih h2
    subst hu
    refine ⟨u1 :: chunks, by simp [h3], by simp [h4], ?_⟩
    intro w hw
    rcases List.mem_cons.mp hw with hw | hw
    · subst hw; exact ⟨_, _, h1⟩
    · exact h5 w hw

theorem matches_repUpTo : ∀ (n : Nat) (a : RE) {u : List Char} {pos : Nat}
    {caps : Caps}, MatchesC (repUpTo n a) u pos caps →
    ∃ chunks : List (List Char), u = chunks.flatten ∧ chunks.length ≤ n ∧
      ∀ w ∈ chunks, ∃ q c, MatchesC a w q c := by
  intro n a
  induction n with
  | zero =>
    intro u pos caps h
    simp only [repUpTo] at h
    obtain ⟨h1, -⟩ := matches_eps_inv h
    subst h1
    exact ⟨[], by simp, by simp, by simp⟩
  | succ n ih =>
    intro u pos caps h
    simp only [repUpTo, REopt] at h
    rcases matches_alt_inv h with h | h
    · obtain ⟨u1, u2, c1, c2, hu, hc, h1, h2⟩ := matches_cat_inv h
      obtain ⟨chunks, h3, h4, h5⟩ := ih h2
      subst hu
      refine ⟨u1 :: chunks, by simp [h3], by simp; omega, ?_⟩
      intro w hw
      rcases List.mem_cons.mp hw with hw | hw
      · subst hw; exact ⟨_, _, h1⟩
      · exact h5 w hw
    · obtain ⟨h1, -⟩ := matches_eps_inv h
      subst h1
      exact ⟨[], by simp, by simp, by simp⟩

theorem matches_repRange {m n : Nat} {a : RE} {u : List Char} {pos : Nat}
    {caps : Caps} (h : MatchesC (repRange m n a) u pos caps) :
    ∃ chunks : List (List Char), u = chunks.flatten ∧ m ≤ chunks.length ∧
      chunks.length ≤ m + (n - m) ∧ ∀ w ∈ chunks, ∃ q c, MatchesC a w q c := by
  simp only [repRange] at h
  obtain ⟨u1, u2, c1, c2, hu, hc, h1, h2⟩ := matches_cat_inv h
  obtain ⟨k1, g1, g2, g3⟩ := matches_repExact m a h1
  obtain ⟨k2, g4, g5, g6⟩ := matches_repUpTo (n - m) a h2
  subst hu
  refine ⟨k1 ++ k2, by simp [g1, g4], by simp [g2], by simp [g2]; omega, ?_⟩
  intro w hw
  rcases List.mem_append.mp hw with hw | hw
  · exact g3 w hw
  · exact g6 w hw

theorem matches_REopt {a : RE} {u : List Char} {pos : Nat} {caps : Caps}
    (h : MatchesC (REopt a) u pos caps) :
    MatchesC a u pos caps ∨ (u = [] ∧ caps = []) := by
  simp only [REopt] at h
  rcases matches_alt_inv h with h | h
  · exact Or.inl h
  · exact Or.inr (matches_eps_inv h)

/-! ## Shapes of the name patterns -/

/-- One "word" of the name patterns — `[A-Z][a-zA-Z\'\.-]*\s+` under
`IGNORECASE`: a letter of either case, a run of name-tail characters,
then at least one whitespace character. -/
def WordShape (w : List Char) : Prop :=
  ∃ c mid sp, w = c :: (mid ++ sp) ∧ c.isAlpha = true ∧
    (∀ x ∈ mid, nameTailChar x = true) ∧ sp ≠ [] ∧ ∀ x ∈ sp, pyIsSpaceB x = true

theorem matches_wordSp {u : List Char} {pos : Nat} {caps : Caps}
    (h : MatchesC wordSpRE u pos caps) : WordShape u := by
  simp only [wordSpRE, upperCI, nameTailCls, wsCls] at h
  obtain ⟨u1, u2, c1, c2, hu, -, h1, h2⟩ := matches_cat_inv h
  obtain ⟨ch, hch, -, halpha⟩ := matches_cls_inv h1
  obtain ⟨u3, u4, c3, c4, hu2, -, h3, h4⟩ := matches_cat_inv h2
  have hmid := matches_star_cls h3
  obtain ⟨hne, hws⟩ := matches_REplus_cls h4
  subst hu; subst hch; subst hu2
  exact ⟨ch, u3, u4, by simp, halpha, hmid, hne, hws⟩

/-- The final word of the student pattern — `[A-Z][a-zA-Z\'\.-]*` under
`IGNORECASE`: a letter then a run of name-tail characters. -/
def LastWordShape (w : List Char) : Prop :=
  ∃ c mid, w = c :: mid ∧ c.isAlpha = true ∧ ∀ x ∈ mid, nameTailChar x = true

theorem matches_lastWord {u : List Char} {pos : Nat} {caps : Caps}
    (h : MatchesC (.cat upperCI (.star nameTailCls)) u pos caps) :
    LastWordShape u := by
  simp only [upperCI, nameTailCls] at h
  obtain ⟨u1, u2, c1, c2, hu, -, h1, h2⟩ := matches_cat_inv h
  obtain ⟨ch, hch, -, halpha⟩ := matches_cls_inv h1
  have hmid := matches_star_cls h2
  subst hu; subst hch
  exact ⟨ch, u2, by simp, halpha, hmid⟩

/-- The optional `Dr\.?\s*` prefix: empty, or `D`/`r` in either case, an
optional period, then whitespace. -/
def DrShape (d : List Char) : Prop :=
  d = [] ∨ ∃ c1 c2 dot sp, d = c1 :: c2 :: (dot ++ sp) ∧ ciEqB 'D' c1 = true ∧
    ciEqB 'r' c2 = true ∧ (dot = [] ∨ dot = ['.']) ∧
    ∀ x ∈ sp, pyIsSpaceB x = true

theorem matches_drOpt {u : List Char} {pos : Nat} {caps : Caps}
    (h : MatchesC (REopt drRE) u pos caps) : DrShape u := by
  rcases matches_REopt h with h | ⟨h1, -⟩
  · simp only [drRE, litCI, wsCls] at h
    obtain ⟨u1, u2, d1, d2, hu, -, h1, h2⟩ := matches_cat_inv h
    obtain ⟨v1, v2, e1, e2, hv, -, g1, g2⟩ := matches_cat_inv h1
    obtain ⟨a, ha, -, hpa⟩ := matches_cls_inv g1
    obtain ⟨v3, v4, e3, e4, hv2, -, g3, g4⟩ := matches_cat_inv g2
    obtain ⟨b, hb, -, hpb⟩ := matches_cls_inv g3
    obtain ⟨hv4, -⟩ := matches_eps_inv g4
    obtain ⟨w1, w2, e5, e6, hw, -, g5, g6⟩ := matches_cat_inv h2
    have hws := matches_star_cls g6
    rcases matches_REopt g5 with g5 | ⟨hw1, -⟩
    · obtain ⟨pc, hpc, -, hdot⟩ := matches_cls_inv g5
      have hpc2 : pc = '.' := by
        have := of_decide_eq_true hdot
        exact this
      refine Or.inr ⟨a, b, w1, w2, ?_, hpa, hpb, Or.inr (by rw [hpc, hpc2]), hws⟩
      subst hu; subst hv; subst ha; subst hv2; subst hb; subst hv4
      subst hw
      simp
    · refine Or.inr ⟨a, b, [], w2, ?_, hpa, hpb, Or.inl rfl, hws⟩
      subst hu; subst hv; subst ha; subst hv2; subst hb; subst hv4
      subst hw; subst hw1
      simp
  · exact Or.inl h1

/-- Capture group 1 of the name/designation pattern: an optional
`Dr` prefix followed by one to four words. -/
def NamePart (g : List Char) : Prop :=
  ∃ (drp : List Char) (words : List (List Char)),
    g = drp ++ words.flatten ∧ DrShape drp ∧ 1 ≤ words.length ∧
    words.length ≤ 4 ∧ ∀ w ∈ words, WordShape w

theorem matches_nameGrp {u : List Char} {pos : Nat} {caps : Caps}
    (h : MatchesC nameGrpBody u pos caps) : NamePart u := by
  simp only [nameGrpBody] at h
  obtain ⟨u1, u2, c1, c2, hu, -, h1, h2⟩ := matches_cat_inv h
  have hdr := matches_drOpt h1
  obtain ⟨chunks, hc1, hc2, hc3, hc4⟩ := matches_repRange h2
  subst hu; subst hc1
  refine ⟨u1, chunks, rfl, hdr, hc2, by omega, ?_⟩
  intro w hw
  obtain ⟨q, c, hm⟩ := hc4 w hw
  exact matches_wordSp hm

/-- Capture group 1 of the student pattern: one to four words followed
by a final word without trailing whitespace (two to five words total). -/
def StudentNamePart (g : List Char) : Prop :=
  ∃ (words : List (List Char)) (lw : List Char),
    g = words.flatten ++ lw ∧ 1 ≤ words.length ∧ words.length ≤ 4 ∧
    (∀ w ∈ words, WordShape w) ∧ LastWordShape lw

theorem matches_studentName {u : List Char} {pos : Nat} {caps : Caps}
    (h : MatchesC (.cat (repRange 1 4 wordSpRE) (.cat upperCI (.star nameTailCls)))
      u pos caps) : StudentNamePart u := by
  obtain ⟨u1, u2, c1, c2, hu, -, h1, h2⟩ := matches_cat_inv h
  obtain ⟨chunks, hc1, hc2, hc3, hc4⟩ := matches_repRange h1
  have hlw := matches_lastWord h2
  subst hu; subst hc1
  refine ⟨chunks, u2, rfl, hc2, by omega, ?_, hlw⟩
  intro w hw
  obtain ⟨q, c, hm⟩ := hc4 w hw
  exact matches_wordSp hm

/-! ## Case-insensitive substring occurrence -/

/-- Decidable case-insensitive substring occurrence: some position of
`text` carries a case-insensitive copy of `kw`. -/
def containsCIB (text kw : List Char) : Bool :=
  (List.range (text.length + 1)).any
    (fun i => eqCIB kw (sliceAbs text i (i + kw.length)))

theorem eqCIB_length : ∀ {a b : List Char}, eqCIB a b = true → a.length = b.length := by
  intro a
  induction a with
  | nil =>
    intro b h
    cases b with
    | nil => rfl
    | cons d ds => simp [eqCIB] at h
  | cons c cs ih =>
    intro b h
    cases b with
    | nil => simp [eqCIB] at h
    | cons d ds =>
      simp only [eqCIB, Bool.and_eq_true] at h
      simp [ih h.2]

theorem slice_of_decomp {text pre w post : List Char}
    (h : text = pre ++ w ++ post) :
    sliceAbs text pre.length (pre.length + w.length) = w := by
  subst h
  unfold sliceAbs
  rw [Nat.add_sub_cancel_left, List.append_assoc, List.drop_left, List.take_left]

/-- If the text decomposes around a case-insensitive copy of `kw`, the
substring test succeeds. -/
theorem containsCIB_of_decomp {text pre w post kw : List Char}
    (h : text = pre ++ w ++ post) (he : eqCIB kw w = true) :
    containsCIB text kw = true := by
  unfold containsCIB
  rw [List.any_eq_true]
  refine ⟨pre.length, ?_, ?_⟩
  · rw [List.mem_range]
    subst h
    simp only [List.length_append]
    omega
  · rw [eqCIB_length he, slice_of_decomp h]
    exact he

/-! ## Decomposition of full matches of the two matchers -/

theorem NamePart_ne_nil {g : List Char} (h : NamePart g) : g ≠ [] := by
  obtain ⟨drp, words, hg, -, h1, -, hw⟩ := h
  cases words with
  | nil => simp at h1
  | cons w ws =>
    obtain ⟨c, mid, sp, hww, -, -, -, -⟩ := hw w (List.mem_cons_self _ _)
    subst hg
    simp [hww]

theorem StudentNamePart_ne_nil {g : List Char} (h : StudentNamePart g) : g ≠ [] := by
  obtain ⟨words, lw, hg, h1, -, hw, -⟩ := h
  cases words with
  | nil => simp at h1
  | cons w ws =>
    obtain ⟨c, mid, sp, hww, -, -, -, -⟩ := hw w (List.mem_cons_self _ _)
    subst hg
    simp [hww]

/-- Every match of `name_designation_regex` splits as group 1 (the name
part), a whitespace gap, and group 2 (a case-insensitive copy of one of
the designation keywords); the capture list holds exactly these two
groups. -/
theorem ndMatch_decomp {text : List Char} {m : Nat × Nat × Caps}
    (h : m ∈ finditer ndRE text) :
    ∃ g1 gap g2,
      sliceAbs text m.1 m.2.1 = (g1 ++ gap) ++ g2 ∧
      m.2.2 = [(1, m.1, m.1 + g1.length),
               (2, m.1 + g1.length + gap.length, m.2.1)] ∧
      NamePart g1 ∧ (∀ x ∈ gap, pyIsSpaceB x = true) ∧
      (∃ d ∈ designation_keywords, eqCIB d.toList g2 = true) ∧
      m.2.1 = m.1 + g1.length + gap.length + g2.length ∧
      text = text.take m.1 ++ ((g1 ++ gap) ++ g2) ++ text.drop m.2.1 ∧
      sliceAbs text m.1 (m.1 + g1.length) = g1 ∧
      sliceAbs text (m.1 + g1.length + gap.length) m.2.1 = g2 := by
  obtain ⟨u, hdrop, hlen, hslice, hm⟩ := finditer_sound h
  simp only [ndRE] at hm
  obtain ⟨u1, u23, ca, cb, hu, hcaps, h1, h2⟩ := matches_cat_inv hm
  obtain ⟨c0, hca, h1g⟩ := matches_grp_inv h1
  have hc0 : c0 = [] := matches_noGrp h1g (by decide)
  obtain ⟨u2, u3, cc, cd, hu23, hcb, hws, h3⟩ := matches_cat_inv h2
  have hcc : cc = [] := matches_noGrp hws (by decide)
  have hgap : ∀ x ∈ u2, pyIsSpaceB x = true := by
    simp only [wsCls] at hws
    exact matches_star_cls hws
  obtain ⟨c4, hcd, h3g⟩ := matches_grp_inv h3
  have hc4 : c4 = [] := matches_noGrp h3g (by decide)
  have hdes : ∃ d ∈ designation_keywords, eqCIB d.toList u3 = true := by
    simp only [desigAlt] at h3g
    obtain ⟨re0, hre0, hm0⟩ :=
      matches_altList (designation_keywords.map (fun s => litCI s.toList)) h3g
    obtain ⟨d, hd, hdre⟩ := List.mem_map.mp hre0
    subst hdre
    exact ⟨d, hd, (matches_litCI d.toList hm0).1⟩
  have hnp : NamePart u1 := matches_nameGrp h1g
  have hend : m.1 + u1.length + u2.length + u3.length = m.2.1 := by
    rw [hlen, hu, hu23]
    simp only [List.length_append]
    omega
  have hm1le : m.1 ≤ text.length := by
    by_contra hgt
    push_neg at hgt
    have hnil : text.drop m.1 = [] := List.drop_eq_nil_of_le (by omega)
    rw [hnil] at hdrop
    have : u = [] := (List.append_eq_nil.mp hdrop.symm).1
    rw [hu] at this
    exact NamePart_ne_nil hnp (List.append_eq_nil.mp this).1
  have hpre : (text.take m.1).length = m.1 := by
    rw [List.length_take]
    omega
  have htext : text = text.take m.1 ++ ((u1 ++ u2) ++ u3) ++ text.drop m.2.1 := by
    conv_lhs => rw [← List.take_append_drop m.1 text]
    rw [hdrop, hu, hu23]
    simp [List.append_assoc]
  have hs1 : sliceAbs text m.1 (m.1 + u1.length) = u1 := by
    have htext1 : text = text.take m.1 ++ u1 ++ ((u2 ++ u3) ++ text.drop m.2.1) := by
      conv_lhs => rw [← List.take_append_drop m.1 text]
      rw [hdrop, hu, hu23]
      simp [List.append_assoc]
    have hres := slice_of_decomp htext1
    rw [hpre] at hres
    exact hres
  have hs2 : sliceAbs text (m.1 + u1.length + u2.length) m.2.1 = u3 := by
    have htext2 : text = (text.take m.1 ++ u1 ++ u2) ++ u3 ++ text.drop m.2.1 := by
      conv_lhs => rw [← List.take_append_drop m.1 text]
      rw [hdrop, hu, hu23]
      simp [List.append_assoc]
    have hpre2 : (text.take m.1 ++ u1 ++ u2).length = m.1 + u1.length + u2.length := by
      simp only [List.length_append, hpre]
    have hres := slice_of_decomp htext2
    rw [hpre2] at hres
    rw [← hend]
    exact hres
  refine ⟨u1, u2, u3, ?_, ?_, hnp, hgap, hdes, ?_, ?_, hs1, ?_⟩
  · rw [← hslice, hu, hu23, List.append_assoc]
  · rw [hcaps, hca, hc0, hcb, hcc, hcd, hc4, hend]
    simp
  · omega
  · exact htext
  · exact hs2

/-- Every match of the student pattern for keyword `kw` splits as group
1 (the student name part), whitespace, an optional separator, more
whitespace, and a case-insensitive copy of `kw`; the capture list holds
exactly group 1. -/
theorem studentMatch_decomp {kw : String} {text : List Char} {m : Nat × Nat × Caps}
    (h : m ∈ finditer (studentRE kw) text) :
    ∃ g1 gap1 sep gap2 lab,
      sliceAbs text m.1 m.2.1 = (((g1 ++ gap1) ++ sep) ++ gap2) ++ lab ∧
      m.2.2 = [(1, m.1, m.1 + g1.length)] ∧
      StudentNamePart g1 ∧ (∀ x ∈ gap1, pyIsSpaceB x = true) ∧
      (sep = [] ∨ ∃ c, sep = [c] ∧ sepChar c = true) ∧
      (∀ x ∈ gap2, pyIsSpaceB x = true) ∧ eqCIB kw.toList lab = true ∧
      text = text.take m.1 ++ ((((g1 ++ gap1) ++ sep) ++ gap2) ++ lab) ++
        text.drop m.2.1 ∧
      sliceAbs text m.1 (m.1 + g1.length) = g1 := by
  obtain ⟨u, hdrop, hlen, hslice, hm⟩ := finditer_sound h
  simp only [studentRE] at hm
  obtain ⟨u1, urest, ca, cb, hu, hcaps, h1, h2⟩ := matches_cat_inv hm
  obtain ⟨c0, hca, h1g⟩ := matches_grp_inv h1
  have hc0 : c0 = [] := matches_noGrp h1g (by decide)
  obtain ⟨u2, urest2, cc, cd, hu2, hcb, hws1, h3⟩ := matches_cat_inv h2
  have hcc : cc = [] := matches_noGrp hws1 (by decide)
  have hgap1 : ∀ x ∈ u2, pyIsSpaceB x = true := by
    simp only [wsCls] at hws1
    exact matches_star_cls hws1
  obtain ⟨u3, urest3, ce, cf, hu3, hcd, hsep, h4⟩ := matches_cat_inv h3
  have hce : ce = [] := matches_noGrp hsep (by decide)
  have hsep2 : u3 = [] ∨ ∃ c, u3 = [c] ∧ sepChar c = true := by
    rcases matches_REopt hsep with hs | ⟨hs, -⟩
    · simp only [sepCls] at hs
      obtain ⟨c, hc, -, hp⟩ := matches_cls_inv hs
      exact Or.inr ⟨c, hc, hp⟩
    · exact Or.inl hs
  obtain ⟨u4, u5, cg, ch2, hu4, hcf, hws2, h5⟩ := matches_cat_inv h4
  have hcg : cg = [] := matches_noGrp hws2 (by decide)
  have hgap2 : ∀ x ∈ u4, pyIsSpaceB x = true := by
    simp only [wsCls] at hws2
    exact matches_star_cls hws2
  obtain ⟨hlab, hch2⟩ := matches_litCI kw.toList h5
  have hsn : StudentNamePart u1 := matches_studentName h1g
  have htext : text =
      text.take m.1 ++ ((((u1 ++ u2) ++ u3) ++ u4) ++ u5) ++ text.drop m.2.1 := by
    conv_lhs => rw [← List.take_append_drop m.1 text]
    rw [hdrop, hu, hu2, hu3, hu4]
    simp [List.append_assoc]
  have hm1le : m.1 ≤ text.length := by
    by_contra hgt
    push_neg at hgt
    have hnil : text.drop m.1 = [] := List.drop_eq_nil_of_le (by omega)
    rw [hnil] at hdrop
    have : u = [] := (List.append_eq_nil.mp hdrop.symm).1
    rw [hu] at this
    exact StudentNamePart_ne_nil hsn (List.append_eq_nil.mp this).1
  have hpre : (text.take m.1).length = m.1 := by
    rw [List.length_take]
    omega
  have hs1 : sliceAbs text m.1 (m.1 + u1.length) = u1 := by
    have htext1 : text = text.take m.1 ++ u1 ++
        (u2 ++ (u3 ++ (u4 ++ (u5 ++ text.drop m.2.1)))) := by
      conv_lhs => rw [← List.take_append_drop m.1 text]
      rw [hdrop, hu, hu2, hu3, hu4]
      simp [List.append_assoc]
    have hres := slice_of_decomp htext1
    rw [hpre] at hres
    exact hres
  refine ⟨u1, u2, u3, u4, u5, ?_, ?_, hsn, hgap1, hsep2, hgap2, hlab, htext, hs1⟩
  · rw [← hslice, hu, hu2, hu3, hu4]
    simp [List.append_assoc]
  · rw [hcaps, hca, hc0, hcb, hcc, hcd, hce, hcf, hcg, hch2]
    simp

/-! ## Deduplication lemmas -/

/-- The deduplication described by the spec, word for word: keep the
first contact of each (name, designation, email) triple and drop every
later contact carrying the same triple. -/
def specFirstOcc : List Contact → List Contact
  | [] => []
  | c :: rest =>
    c :: specFirstOcc (rest.filter (fun c2 => contactKey c2 ≠ contactKey c))
termination_by l => l.length
decreasing_by
  simp only [List.length_cons]
  exact Nat.lt_succ_of_le (List.length_filter_le _ _)

theorem dedupAux_eq_spec :
    ∀ (l : List Contact) (seen : List (String × String × Option String)),
      dedupAux l seen = specFirstOcc (l.filter (fun c => contactKey c ∉ seen)) := by
  intro l
  induction l with
  | nil => intro seen; simp [dedupAux, specFirstOcc]
  | cons c rest ih =>
    intro seen
    by_cases hc : contactKey c ∈ seen
    · rw [dedupAux, if_pos hc, ih seen]
      have hfc : (decide (contactKey c ∉ seen)) = false := by simp [hc]
      simp only [List.filter_cons, hfc]
      rfl
    · rw [dedupAux, if_neg hc, ih (contactKey c :: seen)]
      have hfc : (decide (contactKey c ∉ seen)) = true := by simp [hc]
      simp only [List.filter_cons, hfc]
      rw [if_pos trivial, specFirstOcc.eq_2]
      have hff : rest.filter (fun x => contactKey x ∉ (contactKey c :: seen)) =
          (rest.filter (fun x => contactKey x ∉ seen)).filter
            (fun x => contactKey x ≠ contactKey c) := by
        rw [List.filter_filter]
        apply List.filter_congr
        intro x hx
        by_cases h1 : contactKey x = contactKey c <;>
          by_cases h2 : contactKey x ∈ seen <;>
          simp [h1, h2]
      rw [hff]

theorem dedupAux_sublist :
    ∀ (l : List Contact) (seen : List (String × String × Option String)),
      (dedupAux l seen).Sublist l := by
  intro l
  induction l with
  | nil => intro seen; simp [dedupAux]
  | cons c rest ih =>
    intro seen
    rw [dedupAux]
    by_cases hc : contactKey c ∈ seen
    · rw [if_pos hc]
      exact (ih seen).cons c
    · rw [if_neg hc]
      exact (ih (contactKey c :: seen)).cons₂ c

theorem dedupAux_not_seen :
    ∀ (l : List Contact) (seen : List (String × String × Option String))
      (c : Contact), c ∈ dedupAux l seen → contactKey c ∉ seen := by
  intro l
  induction l with
  | nil => intro seen c h; simp [dedupAux] at h
  | cons d rest ih =>
    intro seen c h
    rw [dedupAux] at h
    by_cases hd : contactKey d ∈ seen
    · rw [if_pos hd] at h
      exact ih seen c h
    · rw [if_neg hd] at h
      rcases List.mem_cons.mp h with h | h
      · subst h; exact hd
      · intro hmem
        exact ih (contactKey d :: seen) c h (List.mem_cons_of_mem _ hmem)

theorem dedupAux_pairwise :
    ∀ (l : List Contact) (seen : List (String × String × Option String)),
      List.Pairwise (fun a b => contactKey a ≠ contactKey b) (dedupAux l seen) := by
  intro l
  induction l with
  | nil => intro seen; simp [dedupAux]
  | cons c rest ih =>
    intro seen
    rw [dedupAux]
    by_cases hc : contactKey c ∈ seen
    · rw [if_pos hc]; exact ih seen
    · rw [if_neg hc]
      refine List.pairwise_cons.mpr ⟨?_, ih (contactKey c :: seen)⟩
      intro b hb
      have := dedupAux_not_seen rest (contactKey c :: seen) b hb
      intro heq
      exact this (heq ▸ List.mem_cons_self _ _)

/-- Membership in the dedup output implies membership in the input. -/
theorem dedupContacts_subset {l : List Contact} {c : Contact}
    (h : c ∈ dedupContacts l) : c ∈ l :=
  (dedupAux_sublist l []).subset h

/-! ## Concrete claim-level computations -/

/-- The sample text of claim C1 (spec §8, third bullet). -/
def c1Text : String :=
  "Dr. Jane Smith Professor of Engineering, jane.smith@univ.edu, +91-9876543210"

end LeadsApp

namespace LeadsApp

/-- The property claim C2 ascribes to every matched contact: department
from the before window, then the after window; email and phone from the
first pattern match inside the after window only. -/
def ContextResolved (text : List Char) (c : Contact) : Prop :=
  ∃ s e : Nat,
    ((∃ caps, (s, e, caps) ∈ finditer ndRE text) ∨
      (∃ kw ∈ student_keywords, ∃ caps, (s, e, caps) ∈ finditer (studentRE kw) text)) ∧
    c.department = (match _guess_department (contextBefore text s) with
      | some d => some d
      | none => _guess_department (contextAfter text e)) ∧
    c.email = (reSearch emailRE (contextAfter text e)).map
      (fun mt => String.mk (pyStrip (sliceAbs (contextAfter text e) mt.1 mt.2.1))) ∧
    c.phone = (reSearch phoneRE (contextAfter text e)).map
      (fun mt => String.mk (stripAllWs (pyStrip (sliceAbs (contextAfter text e) mt.1 mt.2.1))))

/-- The shape the amended claim C4 ascribes to every match of the
name/designation matcher: group 1 is an optional `Dr` prefix plus one to
four words each beginning with a letter of either case (the pattern is
compiled case-insensitively), then optional whitespace, then group 2, a
case-insensitive copy of one of the eleven designation keywords; the
emitted designation is the matched group 2 title-cased, the emitted name
is group 1 stripped and whitespace-collapsed. -/
def NdMatchOK (text : List Char) (m : Nat × Nat × Caps) : Prop :=
  ∃ g1 gap g2,
    sliceAbs text m.1 m.2.1 = (g1 ++ gap) ++ g2 ∧
    NamePart g1 ∧
    (∀ x ∈ gap, pyIsSpaceB x = true) ∧
    (∃ d ∈ designation_keywords, eqCIB d.toList g2 = true) ∧
    (ndContact text m).designation = String.mk (pyTitle g2) ∧
    (ndContact text m).name = String.mk (collapseWs (pyStrip g1))

/-- The shape the amended claim C5 ascribes to every match of the
student-role matcher for a given label: group 1 is one to four words
each followed by whitespace plus a final word (two to five words in
total, letters matched case-insensitively), then optional whitespace, an
optional separator from `-,;:`, optional whitespace, and a
case-insensitive copy of the label; the emitted designation is the
literal label. -/
def StudentMatchOK (kw : String) (text : List Char) (m : Nat × Nat × Caps) : Prop :=
  ∃ g1 gap1 sep gap2 lab,
    sliceAbs text m.1 m.2.1 = (((g1 ++ gap1) ++ sep) ++ gap2) ++ lab ∧
    StudentNamePart g1 ∧
    (∀ x ∈ gap1, pyIsSpaceB x = true) ∧
    (sep = [] ∨ ∃ c, sep = [c] ∧ sepChar c = true) ∧
    (∀ x ∈ gap2, pyIsSpaceB x = true) ∧
    eqCIB kw.toList lab = true ∧
    (studentContact kw text m).designation = kw ∧
    (studentContact kw text m).name = String.mk (collapseWs (pyStrip g1))

/-- The three clauses of claim C3, as stated, about one input string. -/
def NormaliserSpec (url : String) : Prop :=
  (url.toList.take 2 = ['/', '/'] →
    _normalise_url url = String.mk ('h' :: 't' :: 't' :: 'p' :: 's' :: ':' :: url.toList)) ∧
  (url.toList.take 2 ≠ ['/', '/'] → hasScheme url.toList = false →
    _normalise_url url =
      String.mk ('h' :: 't' :: 't' :: 'p' :: 's' :: ':' :: '/' :: '/' :: url.toList)) ∧
  (hasScheme url.toList = true → _normalise_url url = url)

/-- C1 counterexample: on the spec's own sample text the pipeline emits
no contact with phone `"919876543210"` — the phone normalisation strips
only whitespace, so the matched `+91-9876543210` keeps its `+` and `-`. -/
theorem C1_counterexample :
    ¬ ∃ c ∈ processText c1Text.toList, c.phone = some "919876543210" := by
  decide

/-- C1 (amended): on the sample text the pipeline emits exactly one
contact: name "Dr. Jane Smith", designation "Professor", department
"Engineering", email "jane.smith@univ.edu", and phone "+91-9876543210"
(the matched phone with whitespace — and only whitespace — stripped). -/
theorem C1_extraction :
    processText c1Text.toList =
      [⟨"Dr. Jane Smith", "Professor", some "Engineering",
        some "jane.smith@univ.edu", some "+91-9876543210"⟩] := by
  decide

/-- C3 counterexample: the normaliser strips its input first, so an
input that begins with `//` but carries trailing whitespace is not
returned as `https:` + input. -/
theorem C3_counterexample :
    _normalise_url "//x.com " ≠ "https:" ++ "//x.com " ∧
      _normalise_url "//x.com " = "https://x.com" := by
  decide

/-- C4 counterexample: the name/designation pattern is compiled with
`re.IGNORECASE`, so `[A-Z]` also matches lowercase letters: the matcher
emits a contact whose name words are not capitalized. -/
theorem C4_counterexample :
    ndContacts (String.toList "jane smith Professor") =
      [⟨"jane smith", "Professor", none, none, none⟩] ∧
      ('j'.isUpper = false) := by
  decide

/-- C5 counterexample: a single capitalized word immediately followed by
the label does not match (the pattern needs at least two words), while a
fully lowercase two-word name with a comma separator and lowercase label
does match — refuting "exactly 1–4 capitalized words", the separator
set, and the exact-label reading. -/
theorem C5_counterexample :
    studentContactsFor "Placement Cell" (String.toList "John Placement Cell") = [] ∧
      "John Placement Cell".toList = "John".toList ++ [' '] ++ "Placement Cell".toList ∧
      studentContactsFor "Placement Cell" (String.toList "john doe, placement cell") =
        [⟨"john doe", "Placement Cell", none, none, none⟩] := by
  decide

/-- A URL starting with `//` has no scheme: `urlparse` requires the
first character to be a letter. -/
theorem hasScheme_take_two {u : List Char} (h2 : u.take 2 = ['/', '/']) :
    hasScheme u = false := by
  cases u with
  | nil => simp at h2
  | cons c1 t =>
    have hc1 : c1 = '/' := by
      cases t with
      | nil => simp at h2
      | cons c2 t2 =>
        simp [List.take] at h2
        exact h2.1
    subst hc1
    have hsplit : urlForSplit ('/' :: t) = '/' :: t.filter
        (fun c => !(c = Char.ofNat 9 || c = Char.ofNat 10 || c = Char.ofNat 13)) := by
      rw [urlForSplit, List.dropWhile_cons, if_neg (by decide), List.filter_cons,
        if_pos (by decide)]
    unfold hasScheme
    rcases hidx : (urlForSplit ('/' :: t)).findIdx? (· = ':') with _ | i
    · rfl
    · rw [hsplit]
      have hslash : ('/' : Char).isAlpha = false := by decide
      simp [List.headD_cons, hslash]

set_option maxRecDepth 100000 in
set_option maxHeartbeats 4000000 in
/-- C2: for every contact emitted by the name/designation or
student-role matcher, the department comes from scanning the
300-character window before the match and then the window after it
(first whole-word case-insensitive keyword hit in the fixed order), and
the email/phone come from the first pattern match within the after
window only. -/
theorem C2_context_windows (text : List Char) (c : Contact)
    (hc : c ∈ matchedContacts text) : ContextResolved text c := by
  rcases List.mem_append.mp hc with h | h
  · obtain ⟨m, hm, hcm⟩ := List.mem_map.mp h
    subst hcm
    exact ⟨m.1, m.2.1, Or.inl ⟨m.2.2, hm⟩, rfl, rfl, rfl⟩
  · obtain ⟨kw, hkw, hmem⟩ := List.mem_flatMap.mp h
    obtain ⟨m, hm, hcm⟩ := List.mem_map.mp hmem
    subst hcm
    exact ⟨m.1, m.2.1, Or.inr ⟨kw, hkw, m.2.2, hm⟩, rfl, rfl, rfl⟩

/-- C2 witness: the contact extracted from "Li Dean". -/
theorem C2_witness :
    ContextResolved (String.toList "Li Dean")
      ⟨"Li", "Dean", none, none, none⟩ :=
  C2_context_windows (String.toList "Li Dean")
    ⟨"Li", "Dean", none, none, none⟩ (by decide)

set_option maxRecDepth 100000 in
set_option maxHeartbeats 4000000 in
/-- C4 (amended): every name/designation match has the `NdMatchOK`
shape — the word-initial characters may be of either case because the
pattern is compiled with `re.IGNORECASE`; the designation is one of the
eleven vocabulary entries matched case-insensitively (built as the
ordered alternation of `designation_keywords`) and is emitted
title-cased. -/
theorem C4_match_shape (text : List Char) (m : Nat × Nat × Caps)
    (h : m ∈ finditer ndRE text) : NdMatchOK text m := by
  obtain ⟨g1, gap, g2, hsl, hcaps, hnp, hgap, hdes, hend, htext, hs1, hs2⟩ :=
    ndMatch_decomp h
  refine ⟨g1, gap, g2, hsl, hnp, hgap, hdes, ?_, ?_⟩
  · show String.mk (pyTitle
      (sliceAbs text (capGet m.2.2 2).1 (capGet m.2.2 2).2)) =
      String.mk (pyTitle g2)
    have hget : capGet m.2.2 2 = (m.1 + g1.length + gap.length, m.2.1) := by
      rw [hcaps]; rfl
    rw [hget, hs2]
  · show String.mk (collapseWs (pyStrip
      (sliceAbs text (capGet m.2.2 1).1 (capGet m.2.2 1).2))) =
      String.mk (collapseWs (pyStrip g1))
    have hget : capGet m.2.2 1 = (m.1, m.1 + g1.length) := by
      rw [hcaps]; rfl
    rw [hget, hs1]

/-- C4 witness: the (lowercase) match in "jane smith Professor". -/
theorem C4_witness :
    NdMatchOK (String.toList "jane smith Professor")
      (0, 20, [(1, 0, 11), (2, 11, 20)]) :=
  C4_match_shape (String.toList "jane smith Professor")
    (0, 20, [(1, 0, 11), (2, 11, 20)]) (by decide)

set_option maxRecDepth 100000 in
set_option maxHeartbeats 4000000 in
/-- C5 (amended): every student-role match for a label of the fixed set
has the `StudentMatchOK` shape — two to five words (not one to four),
letters matched case-insensitively, the separator drawn from
`-`, `,`, `;`, `:` (the comma included), the label matched
case-insensitively, and the emitted designation is the literal label. -/
theorem C5_match_shape (kw : String) (hkw : kw ∈ student_keywords)
    (text : List Char) (m : Nat × Nat × Caps)
    (h : m ∈ finditer (studentRE kw) text) : StudentMatchOK kw text m := by
  obtain ⟨g1, gap1, sep, gap2, lab, hsl, hcaps, hsn, hgap1, hsep, hgap2, hlab,
    htext, hs1⟩ := studentMatch_decomp h
  refine ⟨g1, gap1, sep, gap2, lab, hsl, hsn, hgap1, hsep, hgap2, hlab, rfl, ?_⟩
  show String.mk (collapseWs (pyStrip
    (sliceAbs text (capGet m.2.2 1).1 (capGet m.2.2 1).2))) =
    String.mk (collapseWs (pyStrip g1))
  have hget : capGet m.2.2 1 = (m.1, m.1 + g1.length) := by
    rw [hcaps]; rfl
  rw [hget, hs1]

/-- C5 witness: the match in "john doe, placement cell". -/
theorem C5_witness :
    StudentMatchOK "Placement Cell" (String.toList "john doe, placement cell")
      (0, 24, [(1, 0, 8)]) :=
  C5_match_shape "Placement Cell" (by decide)
    (String.toList "john doe, placement cell") (0, 24, [(1, 0, 8)]) (by decide)

/-- C6: deduplication keeps exactly the first contact of each
(name, designation, email) triple in first-seen order — any later
contact with the same triple is dropped even if its department or phone
differs — and the surviving triples are pairwise distinct. -/
theorem C6_dedup (l : List Contact) :
    dedupContacts l = specFirstOcc l ∧
    List.Pairwise (fun a b => contactKey a ≠ contactKey b) (dedupContacts l) := by
  constructor
  · rw [dedupContacts, dedupAux_eq_spec]
    congr 1
    apply List.filter_eq_self.mpr
    intro a ha
    simp
  · exact dedupAux_pairwise l []

/-- C7: `extract_contacts` returns the error object built from the
fetch failure message (surfaced as HTTP 500 by the handler) on any
failed fetch, and otherwise a contact list; a text with no designation
and no student-role keyword (case-insensitively) yields the empty list,
not an error. -/
theorem C7_error_handling :
    (∀ (fetch : String → FetchOutcome) (url msg : String),
        fetch (_normalise_url url) = .failure msg →
        extract_contacts fetch url = .error ("Failed to fetch URL: " ++ msg)) ∧
    (∀ (fetch : String → FetchOutcome) (url body : String),
        fetch (_normalise_url url) = .success body →
        extract_contacts fetch url = .contacts (processText body.toList)) ∧
    (∀ raw : List Char,
        (∀ kw ∈ designation_keywords ++ student_keywords,
          containsCIB (flattenText raw) kw.toList = false) →
        processText raw = []) ∧
    (∀ (fetch : String → FetchOutcome) (url msg : String)
        (kvs : List (String × String)),
        kvs.isEmpty = false → bodyUrl kvs = some url → url ≠ "" →
        fetch (_normalise_url url) = .failure msg →
        api_extract fetch (some kvs) =
          (500, .error ("Failed to fetch URL: " ++ msg))) := by
  refine ⟨?_, ?_, ?_, ?_⟩
  · intro fetch url msg hf
    rw [extract_contacts, hf]
  · intro fetch url body hf
    rw [extract_contacts, hf]
  · intro raw hkw
    have hnd : finditer ndRE (flattenText raw) = [] := by
      rw [List.eq_nil_iff_forall_not_mem]
      intro m hm
      obtain ⟨g1, gap, g2, -, -, -, -, ⟨d, hd, hci⟩, -, htext, -, -⟩ :=
        ndMatch_decomp hm
      have hdecomp : flattenText raw =
          ((flattenText raw).take m.1 ++ (g1 ++ gap)) ++ g2 ++
            (flattenText raw).drop m.2.1 := by
        conv_lhs => rw [htext]
        simp [List.append_assoc]
      have hcon : containsCIB (flattenText raw) d.toList = true :=
        containsCIB_of_decomp hdecomp hci
      have hfalse := hkw d (List.mem_append_left _ hd)
      rw [hcon] at hfalse
      exact Bool.true_eq_false.mp hfalse
    have hstu : ∀ kw ∈ student_keywords,
        finditer (studentRE kw) (flattenText raw) = [] := by
      intro kw hkwmem
      rw [List.eq_nil_iff_forall_not_mem]
      intro m hm
      obtain ⟨g1, gap1, sep, gap2, lab, -, -, -, -, -, -, hlab, htext, -⟩ :=
        studentMatch_decomp hm
      have hdecomp : flattenText raw =
          ((flattenText raw).take m.1 ++ (((g1 ++ gap1) ++ sep) ++ gap2)) ++ lab ++
            (flattenText raw).drop m.2.1 := by
        conv_lhs => rw [htext]
        simp [List.append_assoc]
      have hcon : containsCIB (flattenText raw) kw.toList = true :=
        containsCIB_of_decomp hdecomp hlab
      have hfalse := hkw kw (List.mem_append_right _ hkwmem)
      rw [hcon] at hfalse
      exact Bool.true_eq_false.mp hfalse
    have hmc : matchedContacts (flattenText raw) = [] := by
      rw [matchedContacts, ndContacts, hnd]
      rw [List.map_nil, List.nil_append, List.flatMap_eq_nil_iff]
      intro kw hkwmem
      rw [studentContactsFor, hstu kw hkwmem]
      exact List.map_nil
    rw [processText, hmc]
    rfl
  · intro fetch url msg kvs hne hurl hns hf
    have hmsg : ("Failed to fetch URL: " ++ msg) ≠ "" := by
      intro hs
      have hl := congrArg String.length hs
      rw [String.length_append] at hl
      have h21 : ("Failed to fetch URL: " : String).length = 21 := rfl
      rw [h21] at hl
      simp at hl
    rw [api_extract]
    simp only [hne, Bool.false_eq_true, if_false, hurl]
    rw [if_neg hns, extract_contacts, hf]
    simp [hmsg]

/-- C7 witness: a failing fetch, a successful fetch of a keyword-free
page, and the handler surfacing the failure as HTTP 500. -/
theorem C7_witness :
    extract_contacts (fun _ => .failure "boom") "x.com" =
      .error ("Failed to fetch URL: " ++ "boom") ∧
    extract_contacts (fun _ => .success "hello world") "x.com" =
      .contacts (processText (String.toList "hello world")) ∧
    processText (String.toList "hello world") = [] ∧
    api_extract (fun _ => .failure "boom") (some [("url", "x.com")]) =
      (500, .error ("Failed to fetch URL: " ++ "boom")) :=
  ⟨C7_error_handling.1 (fun _ => .failure "boom") "x.com" "boom" rfl,
   C7_error_handling.2.1 (fun _ => .success "hello world") "x.com" "hello world" rfl,
   C7_error_handling.2.2.1 (String.toList "hello world") (by decide),
   C7_error_handling.2.2.2 (fun _ => .failure "boom") "x.com" "boom"
     [("url", "x.com")] (by decide) (by decide) (by decide) rfl⟩

/-- C8: a missing JSON body, or a body whose `url` field is absent or
empty, yields HTTP 400 with the fixed message, and the response does not
depend on the fetch oracle (no network call is made). -/
theorem C8_validation (f g : String → FetchOutcome) (data : JsonBody)
    (h : data = none ∨ ∃ kvs, data = some kvs ∧
      (bodyUrl kvs = none ∨ bodyUrl kvs = some "")) :
    api_extract f data =
      (400, .error "A JSON payload with a 'url' field is required.") ∧
    api_extract f data = api_extract g data := by
  rcases h with h | ⟨kvs, hd, hurl⟩
  · subst h
    exact ⟨rfl, rfl⟩
  · subst hd
    by_cases he : kvs.isEmpty
    · constructor <;> simp [api_extract, he]
    · rcases hurl with hurl | hurl <;> constructor <;>
        simp [api_extract, he, hurl]

/-- C8 witness: a request with no JSON body. -/
theorem C8_witness :
    api_extract (fun _ => .failure "x") none =
      (400, .error "A JSON payload with a 'url' field is required.") ∧
    api_extract (fun _ => .failure "x") none =
      api_extract (fun _ => .success "y") none :=
  C8_validation (fun _ => .failure "x") (fun _ => .success "y") none (Or.inl rfl)

set_option maxRecDepth 100000 in
set_option maxHeartbeats 4000000 in
/-- C9: the department guesser returns `None` or one of the eight
canonical keyword spellings, and consequently every extracted contact's
department is `None` or one of those eight strings. -/
theorem C9_department_range :
    (∀ context : List Char, _guess_department context = none ∨
      _guess_department context ∈ department_keywords.map some) ∧
    (∀ (raw : List Char) (c : Contact), c ∈ processText raw →
      (c.department = none ∨ c.department ∈ department_keywords.map some)) := by
  have hg : ∀ context : List Char, _guess_department context = none ∨
      _guess_department context ∈ department_keywords.map some := by
    intro ctx
    rcases hfind : _guess_department ctx with _ | d
    · exact Or.inl rfl
    · right
      rw [List.mem_map]
      exact ⟨d, List.mem_of_find?_eq_some hfind, rfl⟩
  refine ⟨hg, ?_⟩
  intro raw c hc
  rw [processText] at hc
  have hc2 := dedupContacts_subset hc
  have hres : ∀ s e : Nat,
      (resolveFields (flattenText raw) s e).1 = none ∨
      (resolveFields (flattenText raw) s e).1 ∈ department_keywords.map some := by
    intro s e
    show (match _guess_department (contextBefore (flattenText raw) s) with
      | some d => some d
      | none => _guess_department (contextAfter (flattenText raw) e)) = none ∨
      (match _guess_department (contextBefore (flattenText raw) s) with
      | some d => some d
      | none => _guess_department (contextAfter (flattenText raw) e)) ∈
        department_keywords.map some
    rcases hb : _guess_department (contextBefore (flattenText raw) s) with _ | d
    · exact hg (contextAfter (flattenText raw) e)
    · have hgb := hg (contextBefore (flattenText raw) s)
      rw [hb] at hgb
      rcases hgb with hgb | hgb
      · exact absurd hgb (by simp)
      · exact Or.inr hgb
  rcases List.mem_append.mp hc2 with h | h
  · obtain ⟨m, hm, hcm⟩ := List.mem_map.mp h
    subst hcm
    exact hres m.1 m.2.1
  · obtain ⟨kw, hkw, hmem⟩ := List.mem_flatMap.mp h
    obtain ⟨m, hm, hcm⟩ := List.mem_map.mp hmem
    subst hcm
    exact hres m.1 m.2.1

/-- C9 witness: the contact extracted from "Li Dean". -/
theorem C9_witness :
    (⟨"Li", "Dean", none, none, none⟩ : Contact).department = none ∨
    (⟨"Li", "Dean", none, none, none⟩ : Contact).department ∈
      department_keywords.map some :=
  C9_department_range.2 (String.toList "Li Dean")
    ⟨"Li", "Dean", none, none, none⟩ (by decide)

/-- C10: the result list is deterministically ordered — the
name/designation contacts first (their finditer starts strictly
increase, i.e. text-position order), then the student contacts grouped
by label in the fixed order Placement Cell, Student Council, Cultural
Head (each group in text-position order), and deduplication keeps the
survivors in this relative order (the result is a sublist of the
concatenation). -/
theorem C10_ordering (raw : List Char) :
    processText raw = dedupContacts
      (ndContacts (flattenText raw) ++
        (studentContactsFor "Placement Cell" (flattenText raw) ++
          (studentContactsFor "Student Council" (flattenText raw) ++
            (studentContactsFor "Cultural Head" (flattenText raw) ++ [])))) ∧
    List.Pairwise (fun a b => a.1 < b.1) (finditer ndRE (flattenText raw)) ∧
    (∀ kw ∈ student_keywords,
      List.Pairwise (fun a b => a.1 < b.1)
        (finditer (studentRE kw) (flattenText raw))) ∧
    (processText raw).Sublist (matchedContacts (flattenText raw)) :=
  ⟨rfl, finditer_pairwise, fun kw _ => finditer_pairwise,
    dedupAux_sublist (matchedContacts (flattenText raw)) []⟩

/-- C10 witness: the student finditer ordering at a concrete input. -/
theorem C10_witness :
    List.Pairwise (fun a b => a.1 < b.1)
      (finditer (studentRE "Placement Cell") (flattenText [])) :=
  (C10_ordering []).2.2.1 "Placement Cell" (by decide)

/-- C3 (amended): the normaliser first strips surrounding whitespace;
for an already-stripped input the three claimed clauses hold verbatim:
`//…` gets `https:` prepended, a schemeless input gets `https://`
prepended, and an input carrying a scheme is returned unchanged. -/
theorem C3_normalizer (url : String) (h : pyStrip url.toList = url.toList) :
    NormaliserSpec url := by
  refine ⟨?_, ?_, ?_⟩
  · intro h2
    rw [_normalise_url, h, if_pos h2]
  · intro h2 h3
    rw [_normalise_url, h, if_neg h2, if_neg (by rw [h3]; simp)]
  · intro h3
    have h2 : ¬url.toList.take 2 = ['/', '/'] := by
      intro htake
      rw [hasScheme_take_two htake] at h3
      exact Bool.false_ne_true h3
    rw [_normalise_url, h, if_neg h2, if_pos h3]
    cases url with
    | mk data => rfl

/-- C3 witness: the schemeless stripped input "x.com" gets `https://`
prepended. -/
theorem C3_witness :
    _normalise_url "x.com" =
      String.mk ('h' :: 't' :: 't' :: 'p' :: 's' :: ':' :: '/' :: '/' ::
        String.toList "x.com") :=
  (C3_normalizer "x.com" (by decide)).2.1 (by decide) (by decide)

end LeadsApp
